import Mathlib

/-!
Verification development for the inline-watch-expressions extension
(`src/extension.ts`).  The definitions below are a shallow embedding of the
source: document text is a list of characters, editor positions are
line/column pairs, the debug-adapter message handlers are pure functions on an
explicit store, and the single JavaScript regular expression used by
`getExpressionLocations` is embedded as an explicit matcher with the same
alternation order and backtracking behaviour.
-/

/-- Text is modelled as a list of characters (JS strings over ASCII;
the embedded whitespace and word classes are the ASCII fragments of the
JS `\s` and `\w` classes). -/
abbrev Str := List Char

/-- Character class of the JS regex `\s` and of `String.prototype.trimStart`
and `trimEnd`, restricted to ASCII. -/
def jsWs (c : Char) : Bool :=
  c == ' ' || c == '\t' || c == '\n' || c == '\r' || c == '\x0b' || c == '\x0c'

/-- Character class of the JS regex `\w`: `[A-Za-z0-9_]`. -/
def isWordChar (c : Char) : Bool :=
  ('a' ≤ c && c ≤ 'z') || ('A' ≤ c && c ≤ 'Z') || ('0' ≤ c && c ≤ '9') || c == '_'

/-- Editor position: zero-based line and column, as in `vscode.Position`. -/
structure Pos where
  line : Nat
  char : Nat
deriving DecidableEq, Repr

/-- Position order used by `vscode.Position.isBeforeOrEqual`. -/
def posLe (a b : Pos) : Bool :=
  Nat.blt a.line b.line || (Nat.beq a.line b.line && Nat.ble a.char b.char)

/-- Later of two positions, as used by `vscode.Range.intersection`. -/
def posMax (a b : Pos) : Pos := if posLe a b then b else a

/-- Earlier of two positions, as used by `vscode.Range.intersection`. -/
def posMin (a b : Pos) : Pos := if posLe a b then a else b

/-- Text span: a `vscode.Range` (or `Selection`), given by its two
positions; editor ranges always satisfy `start ≤ stop`. -/
structure Span where
  start : Pos
  stop : Pos
deriving DecidableEq, Repr

/-- Truthiness of `range.intersection(other)` in the source: the
intersection of `[a.start, a.stop]` and `[b.start, b.stop]` is a range
(possibly empty, when the spans merely touch) exactly when the later start
is not after the earlier stop. -/
def spanIntersects (a b : Span) : Bool :=
  posLe (posMax a.start b.start) (posMin a.stop b.stop)

/-- Lines of a document, split on newline characters, as exposed by
`vscode.TextDocument.lineAt`. -/
def linesOf (doc : Str) : List Str := doc.splitOn '\n'

/-- Length of line `l` of the document: `document.lineAt(l).text.length`. -/
def lineLen (doc : Str) (l : Nat) : Nat := ((linesOf doc).getD l []).length

/-- Embedding of `vscode.TextDocument.positionAt`: the line is the number of
newlines before the offset, the column the number of characters since the
last newline. -/
def positionAt (doc : Str) (off : Nat) : Pos :=
  ⟨(doc.take off).count '\n', ((doc.take off).reverse.takeWhile (fun c => !(c == '\n'))).length⟩

/-- Embedding of `vscode.TextDocument.offsetAt`: lengths of the preceding
lines, plus one newline each, plus the column. -/
def offsetAt (doc : Str) (p : Pos) : Nat :=
  (((linesOf doc).take p.line).map List.length).sum + p.line + p.char

/-- Word-character test at an index, out-of-range counting as non-word, as
in the JS `\b` semantics. -/
def isWordAt (s : Str) (i : Nat) : Bool :=
  match s[i]? with
  | some c => isWordChar c
  | none => false

/-- The JS zero-width assertion `\b` at index `i` of `s`. -/
def wordBoundary (s : Str) (i : Nat) : Bool :=
  (if i = 0 then false else isWordAt s (i - 1)) != isWordAt s i

/-- Literal occurrence of `e` at index `j` of `s`.  The source escapes every
regex metacharacter of the expression (`escapeRegExp`), so the expression
always matches as a literal string; the embedding therefore compares
characters directly. -/
def litAt (s e : Str) (j : Nat) : Bool := e.isPrefixOf (s.drop j)

/-- Attempt of the regex tail `escapeRegExp(expression) + (\s|\b|[|]|(|))`
with the expression anchored at `j`; returns the end index of the whole
match.  The suffix alternatives are tried in the regex's order: a whitespace
character, the zero-width `\b`, the literal character class `[|]`, and the
group `(|)`, whose two branches are both empty and therefore always match. -/
def tryExpr (s e : Str) (j : Nat) : Option Nat :=
  if litAt s e j then
    let k := j + e.length
    match s[k]? with
    | some c =>
      if jsWs c then some (k + 1)
      else if wordBoundary s k then some k
      else if c = '|' then some (k + 1)
      else some k
    | none => some k
  else none

/-- Attempt of the whole regex `(\s|\b) + escapeRegExp(expression) +
(\s|\b|[|]|(|))` anchored at index `i`, with the regex engine's backtracking:
the prefix alternative `\s` (consuming one whitespace character) is tried
before the zero-width `\b`. -/
def matchFrom (s e : Str) (i : Nat) : Option Nat :=
  let viaBoundary := if wordBoundary s i then tryExpr s e i else none
  match s[i]? with
  | some c =>
    if jsWs c then
      match tryExpr s e (i + 1) with
      | some stop => some stop
      | none => viaBoundary
    else viaBoundary
  | none => viaBoundary

/-- Repeated `regex.exec` scan with the `g` flag: search left to right for
the next anchored match, emit its start and end indices, and resume at the
match end.  Fuel bounds the scan by the document length; for a non-empty
expression every match is non-empty, so the scan is the exact loop of the
source (which would not terminate on an empty expression). -/
def scanAll (s e : Str) : Nat → Nat → List (Nat × Nat)
  | 0, _ => []
  | fuel + 1, i =>
    if s.length < i then []
    else
      match matchFrom s e i with
      | some stop => (i, stop) :: scanAll s e fuel (max stop (i + 1))
      | none => scanAll s e fuel (i + 1)

/-- All matches of the boundary regex of `getExpressionLocations`
(`src/extension.ts` lines 69-78) over the document, each with its start
index and matched text (`match.index` and `match[0]`). -/
def matchAll (doc e : Str) : List (Nat × Str) :=
  (scanAll doc e (doc.length + 1) 0).map (fun p => (p.1, (doc.drop p.1).take (p.2 - p.1)))

/-- Resolved evaluation result: the `body` of a successful `evaluate`
response (`type` and `result` fields). -/
structure EvalResult where
  type : Str
  result : Str
deriving DecidableEq, Repr

/-- The `WatchedValue` record of the source: the watched expression text,
its optional resolved value, and the explicit spans (`renderAt`) chosen by
the user. -/
structure WatchedValue where
  expression : Str
  value : Option EvalResult
  renderAt : List Span
deriving DecidableEq, Repr

/-- Placeholder entity used where the source dereferences a missing map
entry; all reachable stores keep every referenced id in range. -/
def defaultWatch : WatchedValue := ⟨[], none, []⟩

/-- The `ExpressionLocation` record of the source: expression, display
value, matched text and start position. -/
structure ExpressionLocation where
  expression : Str
  value : Str
  text : Str
  start : Pos
deriving DecidableEq, Repr

/-- A produced decoration: its range and the `before`/`after` annotation
texts (the style fields are constants in the source). -/
structure Decoration where
  range : Span
  beforeText : Str
  afterText : Str
deriving DecidableEq, Repr

/-- Embedding of `getExpressionLocations`: for each expression entry, yield
one location per explicit span (using the expression itself as matched
text), or, when there is no explicit span, one location per boundary-regex
match.  The source reads `watch.value!.result`; callers pass only entries
whose value is present, and the embedding uses a placeholder otherwise. -/
def getExpressionLocations (doc : Str) (entries : List (Str × WatchedValue)) :
    List ExpressionLocation :=
  entries.flatMap (fun p =>
    let value := (p.2.value.getD ⟨[], []⟩).result
    if p.2.renderAt.isEmpty then
      (matchAll doc p.1).map (fun m => ⟨p.1, value, m.2, positionAt doc m.1⟩)
    else
      p.2.renderAt.map (fun r => ⟨p.1, value, p.1, r.start⟩))

/-- Comparator of `generateDecorators`: ascending expression length
(`a.expression.length - b.expression.length`). -/
def lenLe (a b : ExpressionLocation) : Bool :=
  Nat.ble a.expression.length b.expression.length

/-- Body of the `map` in `generateDecorators`: compute the end position
from the start offset and matched-text length, trim captured leading and
trailing whitespace off the displayed range, and roll the end position back
to the previous line when the trim would make the end column negative. -/
def decorateOne (doc : Str) (loc : ExpressionLocation) : Decoration :=
  let endPos := positionAt doc (offsetAt doc loc.start + loc.text.length)
  let prefixOffset :=
    if loc.text.dropWhile jsWs ≠ loc.text
    then loc.text.length - (loc.text.dropWhile jsWs).length else 0
  let suffixOffset :=
    if (loc.text.reverse.dropWhile jsWs).reverse ≠ loc.text
    then loc.text.length - ((loc.text.reverse.dropWhile jsWs).reverse).length else 0
  let endLC : Pos :=
    if endPos.char < suffixOffset
    then ⟨endPos.line - 1, lineLen doc (endPos.line - 1)⟩
    else ⟨endPos.line, endPos.char - suffixOffset⟩
  ⟨⟨⟨loc.start.line, loc.start.char + prefixOffset⟩, endLC⟩,
   ['('], ([' ', '=', ' '] ++ loc.value ++ [')'])⟩

/-- Embedding of `generateDecorators`: sort the locations ascending by
expression length (JS `Array.prototype.sort` is stable, as is `mergeSort`)
and map each to its decoration. -/
def generateDecorators (doc : Str) (locs : List ExpressionLocation) : List Decoration :=
  (locs.mergeSort lenLe).map (decorateOne doc)

/-- Association-list lookup with JS `Map.get` semantics (first, and only,
binding of the key). -/
def getA {α β : Type} [DecidableEq α] : List (α × β) → α → Option β
  | [], _ => none
  | p :: rest, k => if p.1 = k then some p.2 else getA rest k

/-- Association-list update with JS `Map.set` semantics: overwrite the
existing binding in place, or append a new one. -/
def setA {α β : Type} [DecidableEq α] (k : α) (v : β) : List (α × β) → List (α × β)
  | [] => [(k, v)]
  | p :: rest => if p.1 = k then (k, v) :: rest else p :: setA k v rest

/-- The extension's store (`this.expression` in the source).  JS maps hold
references to shared mutable `WatchedValue` objects; the embedding makes
the heap explicit: `entities` is the heap (ids are list indices, never
reused), and both maps hold entity ids. -/
structure Store where
  entities : List WatchedValue
  valueMap : List (Str × Nat)
  requestMap : List (Nat × Nat)
deriving DecidableEq, Repr

/-- The empty store (extension start-up state). -/
def emptyStore : Store := ⟨[], [], []⟩

/-- In-place mutation of the entity with id `id`. -/
def updateEntity (st : Store) (id : Nat) (f : WatchedValue → WatchedValue) : Store :=
  { st with entities := st.entities.set id (f (st.entities.getD id defaultWatch)) }

/-- The watched entity registered under expression `e`, if any. -/
def getWatch (st : Store) (e : Str) : Option WatchedValue :=
  (getA st.valueMap e).map (fun id => st.entities.getD id defaultWatch)

/-- Entries passed to `getExpressionLocations` by `updateDecorators`: the
value map's entries, filtered by the truthiness of `watch.value?.result`
(absent value, or empty result string, are filtered out). -/
def visibleEntries (st : Store) : List (Str × WatchedValue) :=
  (st.valueMap.map (fun p => (p.1, st.entities.getD p.2 defaultWatch))).filter
    (fun p => match p.2.value with
      | some v => !(v.result.isEmpty)
      | none => false)

/-- The locations computed by one run of `updateDecorators`. -/
def resolvedLocations (doc : Str) (st : Store) : List ExpressionLocation :=
  getExpressionLocations doc (visibleEntries st)

/-- The decorations applied by one run of `updateDecorators` on the active
document. -/
def updateDecorators (doc : Str) (st : Store) : List Decoration :=
  generateDecorators doc (resolvedLocations doc st)

/-- Embedding of `clearExpressions`: clear both maps and queue a decorator
update.  The boolean of each handler records whether `queueDecoratorUpdate`
was triggered. -/
def clearExpressions (st : Store) : Store × Bool :=
  (⟨st.entities, [], []⟩, true)

/-- Embedding of the `add-inline-watch-expression-decorator` command
handler, after the expression text has been read from the selection: an
empty expression is rejected; an existing watch has its explicit spans
replaced by the non-intersecting ones plus the selection; otherwise a fresh
entity is created with the selection as sole explicit span (and the host is
asked to issue the protocol evaluate request). -/
def addCmd (sel : Span) (expression : Str) (st : Store) : Store × Bool :=
  if expression.isEmpty then (st, false)
  else
    match getA st.valueMap expression with
    | some id =>
      (updateEntity st id (fun w =>
        { w with renderAt := w.renderAt.filter (fun r => !(spanIntersects r sel)) ++ [sel] }), true)
    | none =>
      ({ st with entities := st.entities ++ [⟨expression, none, [sel]⟩],
                 valueMap := setA expression st.entities.length st.valueMap }, true)

/-- Embedding of the `remove-inline-watch-expression-decorator` command
handler: an empty expression is rejected; an existing watch keeps only the
explicit spans that do not intersect the selection; a missing watch is a
no-op. -/
def removeCmd (sel : Span) (expression : Str) (st : Store) : Store × Bool :=
  if expression.isEmpty then (st, false)
  else
    match getA st.valueMap expression with
    | some id =>
      (updateEntity st id (fun w =>
        { w with renderAt := w.renderAt.filter (fun r => !(spanIntersects r sel)) }), true)
    | none => (st, false)

/-- Embedding of the `reset-inline-watch-expression-decorators` command
handler. -/
def resetCmd (st : Store) : Store × Bool := clearExpressions st

/-- Outgoing debug-protocol message, with the `arguments` object of
`evaluate` requests flattened into `context` and `expression`. -/
structure OutgoingMessage where
  seq : Nat
  type : String
  command : String
  context : String
  expression : Str
deriving DecidableEq, Repr

/-- Incoming debug-protocol message, with the `body` object flattened:
`bodyError` is the truthiness of `body.error`, and `bodyType`/`bodyResult`
its payload.  The `success` field is part of the protocol shape; the source
never reads it. -/
structure IncomingMessage where
  type : String
  command : String
  success : Bool
  bodyError : Bool
  bodyType : Str
  bodyResult : Str
  request_seq : Nat
deriving DecidableEq, Repr

/-- Embedding of `Extension.onWillReceiveMessage`: an outgoing `next`
command clears the store; an outgoing watch-context `evaluate` request
registers the pending request, creating the entity (with no explicit spans)
if the expression is not yet tracked. -/
def onWillReceiveMessage (m : OutgoingMessage) (st : Store) : Store × Bool :=
  if m.command = "next" then clearExpressions st
  else if m.command = "evaluate" ∧ m.type = "request" ∧ m.context = "watch" then
    match getA st.valueMap m.expression with
    | some id => ({ st with requestMap := setA m.seq id st.requestMap }, false)
    | none =>
      ({ st with entities := st.entities ++ [⟨m.expression, none, []⟩],
                 valueMap := setA m.expression st.entities.length st.valueMap,
                 requestMap := setA m.seq st.entities.length st.requestMap }, false)
  else (st, false)

/-- Embedding of `Extension.onDidSendMessage`: an incoming `evaluate`
response whose `body.error` is not truthy and whose `request_seq` is
registered sets the resolved entity's value from the body and queues a
decorator update; every other message leaves the store untouched. -/
def onDidSendMessage (m : IncomingMessage) (st : Store) : Store × Bool :=
  if m.type = "response" ∧ m.command = "evaluate" ∧ m.bodyError = false then
    match getA st.requestMap m.request_seq with
    | some id =>
      (updateEntity st id (fun w => { w with value := some ⟨m.bodyType, m.bodyResult⟩ }), true)
    | none => (st, false)
  else (st, false)

/-- Event alphabet of the debounce model: a call of the debounced function
(`queueDecoratorUpdate`) or the passage of one millisecond. -/
inductive DebEvent
  | trigger
  | tick
deriving DecidableEq, Repr

/-- State of the `debounce` closure: the pending `setTimeout`, recorded as
the number of milliseconds still to elapse before it fires. -/
structure DebState where
  pending : Option Nat
deriving DecidableEq, Repr

/-- One step of the debounce state machine of `debounce(func, ms)`:
a trigger performs `clearTimeout` on any pending timer and re-arms a fresh
one for the full quiet period; a tick counts the pending timer down and
fires `func` (second component `true`) when it elapses. -/
def debStep (d : Nat) (s : DebState) : DebEvent → DebState × Bool
  | DebEvent.trigger => (⟨some d⟩, false)
  | DebEvent.tick =>
    match s.pending with
    | none => (⟨none⟩, false)
    | some n => if n ≤ 1 then (⟨none⟩, true) else (⟨some (n - 1)⟩, false)

/-- Run of the debounce machine over a list of events, counting how many
times the debounced function ran. -/
def runDeb (d : Nat) : DebState → List DebEvent → DebState × Nat
  | s, [] => (s, 0)
  | s, e :: evs =>
    let sf := debStep d s e
    let rest := runDeb d sf.1 evs
    (rest.1, (if sf.2 then 1 else 0) + rest.2)

/-- Quiet period of `queueDecoratorUpdate = debounce(this.updateDecorators.bind(this), 500)`. -/
def quietPeriodMs : Nat := 500

/-- The update scheduler of the source: the debounce machine instantiated
at the 500 ms quiet period. -/
def queueDecoratorUpdateStep : DebState → DebEvent → DebState × Bool :=
  debStep quietPeriodMs

/-- Lookup failure means no binding carries the key. -/
theorem getA_none_ne {α β : Type} [DecidableEq α] {l : List (α × β)} {k : α}
    (h : getA l k = none) : ∀ p ∈ l, p.1 ≠ k := by
  induction l with
  | nil => intro p hp; cases hp
  | cons q rest ih =>
    intro p hp
    by_cases hq : q.1 = k
    · simp [getA, hq] at h
    · rcases List.mem_cons.mp hp with hp | hp
      · rw [hp]; exact hq
      · exact ih (by simpa [getA, hq] using h) p hp

/-- A successful lookup returns a binding of the list. -/
theorem getA_mem {α β : Type} [DecidableEq α] {l : List (α × β)} {k : α} {v : β}
    (h : getA l k = some v) : (k, v) ∈ l := by
  induction l with
  | nil => cases h
  | cons q rest ih =>
    by_cases hq : q.1 = k
    · have h' : some q.2 = some v := by simpa [getA, hq] using h
      have hv : q.2 = v := by injection h'
      have hqe : q = (k, v) := by cases q; simp_all
      rw [← hqe]
      exact List.mem_cons_self q rest
    · exact List.mem_cons_of_mem q (ih (by simpa [getA, hq] using h))

/-- Every binding of the updated list is the new binding or an old one. -/
theorem mem_setA {α β : Type} [DecidableEq α] {l : List (α × β)} {k : α} {v : β} {q : α × β}
    (h : q ∈ setA k v l) : q = (k, v) ∨ q ∈ l := by
  induction l with
  | nil => simpa [setA] using h
  | cons p rest ih =>
    by_cases hp : p.1 = k
    · simp only [setA, hp, if_pos, List.mem_cons] at h
      rcases h with h | h
      · exact Or.inl h
      · exact Or.inr (List.mem_cons_of_mem p h)
    · simp only [setA, hp, if_neg, not_false_iff, List.mem_cons] at h
      rcases h with h | h
      · exact Or.inr (by rw [h]; exact List.mem_cons_self p rest)
      · rcases ih h with h | h
        · exact Or.inl h
        · exact Or.inr (List.mem_cons_of_mem p h)

/-- Updating then looking up the same key yields the new value. -/
theorem getA_setA_self {α β : Type} [DecidableEq α] (l : List (α × β)) (k : α) (v : β) :
    getA (setA k v l) k = some v := by
  induction l with
  | nil => simp [setA, getA]
  | cons p rest ih =>
    by_cases hp : p.1 = k
    · simp [setA, hp, getA]
    · simp [setA, hp, getA, ih]

/-- Updating one key leaves lookups of other keys unchanged. -/
theorem getA_setA_ne {α β : Type} [DecidableEq α] (l : List (α × β)) {k k' : α} (v : β)
    (h : k' ≠ k) : getA (setA k v l) k' = getA l k' := by
  induction l with
  | nil => simp [setA, getA, Ne.symm h]
  | cons p rest ih =>
    by_cases hp : p.1 = k
    · simp only [setA, hp, if_pos]
      simp [getA, Ne.symm h, hp]
    · simp only [setA, hp, if_neg, not_false_iff]
      by_cases hp' : p.1 = k'
      · simp [getA, hp']
      · simp [getA, hp', ih]

/-- Setting an absent key appends the binding. -/
theorem setA_of_getA_none {α β : Type} [DecidableEq α] {l : List (α × β)} {k : α} (v : β)
    (h : getA l k = none) : setA k v l = l ++ [(k, v)] := by
  induction l with
  | nil => simp [setA]
  | cons p rest ih =>
    by_cases hp : p.1 = k
    · simp [getA, hp] at h
    · simp only [setA, hp, if_neg, not_false_iff, List.cons_append, List.cons.injEq, true_and]
      exact ih (by simpa [getA, hp] using h)

/-- With pairwise-distinct keys, lookup finds exactly the member binding. -/
theorem getA_of_mem_pairwise {α β : Type} [DecidableEq α] {l : List (α × β)} {k : α} {v : β}
    (hpw : List.Pairwise (fun p q => p.1 ≠ q.1) l) (hm : (k, v) ∈ l) : getA l k = some v := by
  induction l with
  | nil => cases hm
  | cons p rest ih =>
    rcases List.mem_cons.mp hm with hm | hm
    · rw [← hm]
      simp [getA]
    · have hne : p.1 ≠ k := by
        have := (List.pairwise_cons.mp hpw).1 (k, v) hm
        simpa using this
      simp only [getA, hne, if_neg, not_false_iff]
      exact ih (List.pairwise_cons.mp hpw).2 hm

/-- Updating a binding preserves pairwise-distinct keys. -/
theorem pairwise_setA {α β : Type} [DecidableEq α] {l : List (α × β)} {k : α} (v : β)
    (hpw : List.Pairwise (fun p q => p.1 ≠ q.1) l) :
    List.Pairwise (fun p q => p.1 ≠ q.1) (setA k v l) := by
  induction l with
  | nil => simp [setA]
  | cons p rest ih =>
    rcases List.pairwise_cons.mp hpw with ⟨hp, hrest⟩
    by_cases hpk : p.1 = k
    · simp only [setA, hpk, if_pos]
      refine List.pairwise_cons.mpr ⟨?_, hrest⟩
      intro q hq
      have := hp q hq
      simpa [hpk] using this
    · simp only [setA, hpk, if_neg, not_false_iff]
      refine List.pairwise_cons.mpr ⟨?_, ih hrest⟩
      intro q hq
      rcases mem_setA hq with hq | hq
      · rw [hq]; exact hpk
      · exact hp q hq

/-- Value of `List.getD` after `List.set`. -/
theorem getD_set_eq {α : Type} (l : List α) (i j : Nat) (a d : α) :
    (l.set i a).getD j d = if i = j ∧ i < l.length then a else l.getD j d := by
  by_cases hij : i = j
  · subst hij
    by_cases hlen : i < l.length
    · simp [List.getD_eq_getElem?_getD, List.getElem?_set_self hlen, hlen]
    · have hnone : l[i]? = none := by
        rw [List.getElem?_eq_none_iff]
        omega
      simp [List.getD_eq_getElem?_getD, List.getElem?_set, hlen, hnone]
  · simp [List.getD_eq_getElem?_getD, List.getElem?_set_ne hij, hij]

/-- Value of `List.getD` inside the left part of an append. -/
theorem getD_append_lt {α : Type} (l l2 : List α) (i : Nat) (d : α) (h : i < l.length) :
    (l ++ l2).getD i d = l.getD i d := by
  simp [List.getD_eq_getElem?_getD, List.getElem?_append_left h]

/-- Value of `List.getD` at the first appended element. -/
theorem getD_append_self {α : Type} (l : List α) (x d : α) :
    (l ++ [x]).getD l.length d = x := by
  simp [List.getD_eq_getElem?_getD]

/-- The position order is reflexive. -/
theorem posLe_refl (a : Pos) : posLe a a = true := by
  simp [posLe, Nat.ble_eq]

/-- Every editor range (whose start is not after its stop) intersects
itself, so re-adding a watch at the same selection first filters that same
selection out. -/
theorem spanIntersects_self {s : Span} (h : posLe s.start s.stop = true) :
    spanIntersects s s = true := by
  simp only [spanIntersects, posMax, posMin, posLe_refl, if_pos]
  exact h

/-- Count of leading whitespace characters of a matched text, as the spec
words it. -/
def leadingWsCount (t : Str) : Nat := (t.takeWhile jsWs).length

/-- Count of trailing whitespace characters of a matched text, as the spec
words it. -/
def trailingWsCount (t : Str) : Nat := (t.reverse.takeWhile jsWs).length

/-- The source's `text.trimStart() !== text ? text.length - text.trimStart().length : 0`
equals the count of leading whitespace characters. -/
theorem trimStartOffset_eq (t : Str) :
    (if t.dropWhile jsWs ≠ t then t.length - (t.dropWhile jsWs).length else 0) =
      leadingWsCount t := by
  have hsplit : t.takeWhile jsWs ++ t.dropWhile jsWs = t :=
    List.takeWhile_append_dropWhile jsWs t
  by_cases h : t.dropWhile jsWs = t
  · have hlen : (t.takeWhile jsWs).length + (t.dropWhile jsWs).length = t.length := by
      rw [← List.length_append, hsplit]
    have : (t.takeWhile jsWs).length = 0 := by
      rw [h] at hlen
      omega
    simp [h, leadingWsCount, this]
  · have hlen : (t.takeWhile jsWs).length + (t.dropWhile jsWs).length = t.length := by
      rw [← List.length_append, hsplit]
    simp only [h, ne_eq, not_false_iff, if_pos, leadingWsCount]
    omega

/-- The source's `text.trimEnd() !== text ? text.length - text.trimEnd().length : 0`
equals the count of trailing whitespace characters. -/
theorem trimEndOffset_eq (t : Str) :
    (if (t.reverse.dropWhile jsWs).reverse ≠ t then
       t.length - ((t.reverse.dropWhile jsWs).reverse).length else 0) =
      trailingWsCount t := by
  have hrw : ((t.reverse.dropWhile jsWs).reverse ≠ t) ↔ (t.reverse.dropWhile jsWs ≠ t.reverse) := by
    constructor
    · intro h hc
      exact h (by rw [hc, List.reverse_reverse])
    · intro h hc
      apply h
      have := congrArg List.reverse hc
      simpa using this
  have base := trimStartOffset_eq t.reverse
  simp only [leadingWsCount, List.length_reverse] at base
  by_cases h : t.reverse.dropWhile jsWs = t.reverse
  · simp only [hrw, h, ne_eq, not_true_eq_false, if_neg, not_false_iff, trailingWsCount]
    simpa [h] using base
  · simp only [hrw, h, ne_eq, not_false_iff, if_pos, List.length_reverse, trailingWsCount]
    simpa [h] using base

/-- C1: the boundary matcher does return an occurrence embedded inside a
longer identifier.  In the document `ab`, with expression `a`, the
occurrence of `a` at offset 0 is immediately followed by the word character
`b` — not by whitespace, a word boundary, or one of the characters
`[ ] ( ) |` — yet `matchAll` returns it: the suffix group of the regex,
`(\s|\b|[|]|(|))`, ends in the alternative `(|)` which matches the empty
string, so the follower restriction stated in the code's own comment is
vacuous. -/
theorem matchAll_embedded_occurrence :
    matchAll ['a', 'b'] ['a'] = [(0, ['a'])] ∧
    isWordChar 'b' = true ∧ jsWs 'b' = false ∧ wordBoundary ['a', 'b'] 1 = false := by
  decide

/-- C5: an outgoing `next` command clears both the expression map and the
pending-request map, and any incoming message processed on the cleared
store — in particular a response whose `request_seq` was registered before
the clear — leaves the store unchanged and queues no decorator update. -/
theorem next_clears_store (mo : OutgoingMessage) (st : Store) (h : mo.command = "next")
    (mi : IncomingMessage) :
    (onWillReceiveMessage mo st).1.valueMap = [] ∧
    (onWillReceiveMessage mo st).1.requestMap = [] ∧
    onDidSendMessage mi (onWillReceiveMessage mo st).1 =
      ((onWillReceiveMessage mo st).1, false) := by
  have hcl : onWillReceiveMessage mo st = clearExpressions st := by
    simp [onWillReceiveMessage, h]
  rw [hcl]
  refine ⟨rfl, rfl, ?_⟩
  simp only [clearExpressions, onDidSendMessage, getA]
  split
  · rfl
  · rfl

/-- Closed instance of `next_clears_store`: the store holding watch `x`
with pending request 1 is fully cleared by an outgoing `next`, and the
late response to request 1 is then dropped. -/
theorem next_clears_store_witness :
    ((onWillReceiveMessage ⟨7, "request", "next", "", []⟩
        ⟨[⟨['x'], none, []⟩], [(['x'], 0)], [(1, 0)]⟩).1.valueMap = [] ∧
     (onWillReceiveMessage ⟨7, "request", "next", "", []⟩
        ⟨[⟨['x'], none, []⟩], [(['x'], 0)], [(1, 0)]⟩).1.requestMap = [] ∧
     onDidSendMessage ⟨"response", "evaluate", true, false, ['t'], ['5'], 1⟩
        (onWillReceiveMessage ⟨7, "request", "next", "", []⟩
          ⟨[⟨['x'], none, []⟩], [(['x'], 0)], [(1, 0)]⟩).1 =
       ((onWillReceiveMessage ⟨7, "request", "next", "", []⟩
          ⟨[⟨['x'], none, []⟩], [(['x'], 0)], [(1, 0)]⟩).1, false)) :=
  next_clears_store ⟨7, "request", "next", "", []⟩
    ⟨[⟨['x'], none, []⟩], [(['x'], 0)], [(1, 0)]⟩ rfl
    ⟨"response", "evaluate", true, false, ['t'], ['5'], 1⟩

/-- Entity heap after an in-place entity mutation. -/
theorem updateEntity_fields (st : Store) (id : Nat) (f : WatchedValue → WatchedValue) (j : Nat) :
    (updateEntity st id f).entities.getD j defaultWatch =
      if id = j ∧ id < st.entities.length then f (st.entities.getD id defaultWatch)
      else st.entities.getD j defaultWatch :=
  getD_set_eq ..

/-- C10: the remove handler never touches the expression map, the
pending-request map, the number of entities, or any entity's expression
string or resolved value — it can only change explicit spans (`renderAt`),
and never deletes a store entry. -/
theorem removeCmd_frame (st : Store) (sel : Span) (e : Str) :
    (removeCmd sel e st).1.valueMap = st.valueMap ∧
    (removeCmd sel e st).1.requestMap = st.requestMap ∧
    (removeCmd sel e st).1.entities.length = st.entities.length ∧
    ∀ j, ((removeCmd sel e st).1.entities.getD j defaultWatch).expression =
           (st.entities.getD j defaultWatch).expression ∧
         ((removeCmd sel e st).1.entities.getD j defaultWatch).value =
           (st.entities.getD j defaultWatch).value := by
  by_cases he : e.isEmpty
  · simp [removeCmd, he]
  · cases hg : getA st.valueMap e with
    | none => simp [removeCmd, he, hg]
    | some id =>
      have hred : removeCmd sel e st =
          (updateEntity st id (fun w =>
            { w with renderAt := w.renderAt.filter (fun r => !(spanIntersects r sel)) }), true) := by
        simp [removeCmd, he, hg]
      rw [hred]
      refine ⟨rfl, rfl, List.length_set .., ?_⟩
      intro j
      dsimp only
      rw [updateEntity_fields]
      split
      · rename_i hc
        rw [← hc.1]
        exact ⟨rfl, rfl⟩
      · exact ⟨rfl, rfl⟩

/-- Store used to exhibit the C2 counterexample: watch `x` is tracked and
request 1 is pending for it. -/
def c2Store : Store := ⟨[⟨['x'], none, []⟩], [(['x'], 0)], [(1, 0)]⟩

/-- Evaluate response whose `success` field is `false` but whose body
carries no `error` field. -/
def c2Msg : IncomingMessage := ⟨"response", "evaluate", false, false, ['t'], ['5'], 1⟩

/-- C2 counterexample: the incoming-message handler never reads the
`success` field — it checks `!message.body.error`.  A response with
`success = false` but no truthy `body.error`, addressed to a registered
request, mutates the store and queues a decoration update, contradicting
the claim that every `success = false` response is dropped. -/
theorem onDidSendMessage_ignores_success :
    c2Msg.success = false ∧
    (onDidSendMessage c2Msg c2Store).1 ≠ c2Store ∧
    (onDidSendMessage c2Msg c2Store).2 = true := by
  refine ⟨rfl, ?_, by decide⟩
  decide

/-- C2 amended: the handler drops a message (identical store, no update
queued) unless its type is `response`, its command `evaluate`, its
`body.error` falsy, and its `request_seq` registered; when all four hold it
sets the resolved entity's value from the body and queues an update. -/
theorem onDidSendMessage_guard (m : IncomingMessage) (st : Store) :
    (¬(m.type = "response" ∧ m.command = "evaluate" ∧ m.bodyError = false ∧
        (getA st.requestMap m.request_seq).isSome = true) →
      onDidSendMessage m st = (st, false)) ∧
    (∀ id, m.type = "response" → m.command = "evaluate" → m.bodyError = false →
      getA st.requestMap m.request_seq = some id →
      onDidSendMessage m st =
        (updateEntity st id (fun w => { w with value := some ⟨m.bodyType, m.bodyResult⟩ }),
         true)) := by
  constructor
  · intro h
    by_cases hc : m.type = "response" ∧ m.command = "evaluate" ∧ m.bodyError = false
    · cases hg : getA st.requestMap m.request_seq with
      | none =>
        unfold onDidSendMessage
        rw [if_pos hc, hg]
      | some id =>
        exact absurd ⟨hc.1, hc.2.1, hc.2.2, by rw [hg]; rfl⟩ h
    · unfold onDidSendMessage
      rw [if_neg hc]
  · intro id h1 h2 h3 hg
    unfold onDidSendMessage
    rw [if_pos ⟨h1, h2, h3⟩, hg]

/-- Closed instance of `onDidSendMessage_guard`: an error response on
`c2Store` is dropped, and an error-free registered response sets the
entity's value. -/
theorem onDidSendMessage_guard_witness :
    onDidSendMessage ⟨"response", "evaluate", true, true, ['t'], ['5'], 1⟩ c2Store =
      (c2Store, false) ∧
    onDidSendMessage c2Msg c2Store =
      (updateEntity c2Store 0
        (fun w => { w with value := some ⟨c2Msg.bodyType, c2Msg.bodyResult⟩ }), true) :=
  ⟨(onDidSendMessage_guard ⟨"response", "evaluate", true, true, ['t'], ['5'], 1⟩ c2Store).1
      (by decide),
   (onDidSendMessage_guard c2Msg c2Store).2 0 rfl rfl rfl (by decide)⟩

/-- First explicit span of the C3 counterexample (offsets 0-5 of line 0). -/
def c3SpanA : Span := ⟨⟨0, 0⟩, ⟨0, 5⟩⟩

/-- Second, overlapping selection of the C3 counterexample (offsets 3-8 of
line 0; in the document `abcabcabc` both selections read `abcab`). -/
def c3SpanB : Span := ⟨⟨0, 3⟩, ⟨0, 8⟩⟩

/-- The expression selected at both spans of the counterexample. -/
def c3Expr : Str := ['a', 'b', 'c', 'a', 'b']

/-- Store before the round trip: the expression is watched at `c3SpanA`. -/
def c3Pre : Store := (addCmd c3SpanA c3Expr emptyStore).1

/-- Store after adding and then removing `c3SpanB`. -/
def c3Post : Store := (removeCmd c3SpanB c3Expr (addCmd c3SpanB c3Expr c3Pre).1).1

/-- C3 counterexample: adding the watch at the overlapping selection
`c3SpanB` deletes the pre-existing explicit span `c3SpanA` (re-adding moves
the annotation), and the subsequent remove deletes `c3SpanB` itself, so the
round trip ends with no explicit span instead of the pre-add value
`[c3SpanA]`. -/
theorem add_remove_not_round_trip :
    (getWatch c3Pre c3Expr).map WatchedValue.renderAt = some [c3SpanA] ∧
    (getWatch c3Post c3Expr).map WatchedValue.renderAt = some [] ∧
    (getWatch c3Post c3Expr).map WatchedValue.renderAt ≠
      (getWatch c3Pre c3Expr).map WatchedValue.renderAt := by
  refine ⟨by decide, by decide, by decide⟩

/-- C3 amended: for an existing watch, `add(span)` followed by
`remove(span)` leaves as explicit spans exactly the pre-add spans that do
not intersect the added span; in particular the round trip restores the
pre-add value exactly when no pre-existing explicit span intersects the
added span. -/
theorem add_remove_round_trip (st : Store) (sel : Span) (e : Str) (id : Nat)
    (he : e.isEmpty = false) (hsel : posLe sel.start sel.stop = true)
    (hid : getA st.valueMap e = some id) :
    (getWatch ((removeCmd sel e (addCmd sel e st).1).1) e).map WatchedValue.renderAt =
      some ((st.entities.getD id defaultWatch).renderAt.filter
        (fun r => !(spanIntersects r sel))) ∧
    ((∀ r ∈ (st.entities.getD id defaultWatch).renderAt, spanIntersects r sel = false) →
      (getWatch ((removeCmd sel e (addCmd sel e st).1).1) e).map WatchedValue.renderAt =
        (getWatch st e).map WatchedValue.renderAt) := by
  have hpredsel : (!(spanIntersects sel sel)) = false := by
    rw [spanIntersects_self hsel]
    rfl
  have hadd : (addCmd sel e st).1 = updateEntity st id (fun w =>
      { w with renderAt := w.renderAt.filter (fun r => !(spanIntersects r sel)) ++ [sel] }) := by
    simp [addCmd, he, hid]
  have hvm1 : (addCmd sel e st).1.valueMap = st.valueMap := by
    rw [hadd]
    rfl
  have hid1 : getA (addCmd sel e st).1.valueMap e = some id := by
    rw [hvm1]
    exact hid
  have hrem : (removeCmd sel e (addCmd sel e st).1).1 =
      updateEntity (addCmd sel e st).1 id (fun w =>
        { w with renderAt := w.renderAt.filter (fun r => !(spanIntersects r sel)) }) := by
    simp [removeCmd, he, hid1]
  have hvm2 : (removeCmd sel e (addCmd sel e st).1).1.valueMap = st.valueMap := by
    rw [hrem, hadd]
    rfl
  have hlen1 : (addCmd sel e st).1.entities.length = st.entities.length := by
    rw [hadd]
    exact List.length_set ..
  have hfinal : (getWatch ((removeCmd sel e (addCmd sel e st).1).1) e).map WatchedValue.renderAt =
      some ((st.entities.getD id defaultWatch).renderAt.filter
        (fun r => !(spanIntersects r sel))) := by
    unfold getWatch
    rw [hvm2, hid]
    simp only [Option.map_some']
    congr 1
    rw [hrem, updateEntity_fields, hlen1]
    by_cases hl : id < st.entities.length
    · rw [if_pos ⟨rfl, hl⟩, hadd, updateEntity_fields, if_pos ⟨rfl, hl⟩]
      simp only [List.filter_append, List.filter_filter, Bool.and_self,
        List.filter_cons, hpredsel, Bool.false_eq_true, if_false, List.filter_nil,
        List.append_nil]
    · rw [if_neg (fun hc => hl hc.2), hadd, updateEntity_fields,
        if_neg (fun hc => hl hc.2)]
      rw [List.getD_eq_default _ _ (Nat.le_of_not_lt hl)]
      rfl
  refine ⟨hfinal, ?_⟩
  intro hall
  rw [hfinal]
  have hkeep : (st.entities.getD id defaultWatch).renderAt.filter
      (fun r => !(spanIntersects r sel)) = (st.entities.getD id defaultWatch).renderAt :=
    List.filter_eq_self.mpr (fun r hr => by rw [hall r hr]; rfl)
  rw [hkeep]
  unfold getWatch
  rw [hid]
  rfl

/-- A selection on line 2 that intersects no explicit span of `c3Pre`. -/
def c3SpanC : Span := ⟨⟨2, 0⟩, ⟨2, 5⟩⟩

/-- Closed instance of `add_remove_round_trip`: on `c3Pre`, adding and
removing the non-intersecting selection `c3SpanC` keeps the pre-add span
set `[c3SpanA]`. -/
theorem add_remove_round_trip_witness :
    (getWatch ((removeCmd c3SpanC c3Expr (addCmd c3SpanC c3Expr c3Pre).1).1) c3Expr).map
        WatchedValue.renderAt =
      some ((c3Pre.entities.getD 0 defaultWatch).renderAt.filter
        (fun r => !(spanIntersects r c3SpanC))) ∧
    ((∀ r ∈ (c3Pre.entities.getD 0 defaultWatch).renderAt,
        spanIntersects r c3SpanC = false) →
      (getWatch ((removeCmd c3SpanC c3Expr (addCmd c3SpanC c3Expr c3Pre).1).1) c3Expr).map
          WatchedValue.renderAt =
        (getWatch c3Pre c3Expr).map WatchedValue.renderAt) :=
  add_remove_round_trip c3Pre c3SpanC c3Expr 0 (by decide) (by decide) (by decide)

/-- C4: the decoration range emitted for a location starts at the match's
start column shifted forward by the count of leading whitespace characters
of the matched text, and ends at the match's end column shifted backward by
the count of trailing whitespace characters; when that backward shift would
make the end column negative, the end position is instead rolled back to
the final column of the previous line.  The source computes the two shifts
by comparing against `trimStart`/`trimEnd`; `trimStartOffset_eq` and
`trimEndOffset_eq` identify them with the whitespace counts. -/
theorem decorateOne_range_spec (doc : Str) (loc : ExpressionLocation) :
    (decorateOne doc loc).range =
      ⟨⟨loc.start.line, loc.start.char + leadingWsCount loc.text⟩,
       if (positionAt doc (offsetAt doc loc.start + loc.text.length)).char <
            trailingWsCount loc.text
       then ⟨(positionAt doc (offsetAt doc loc.start + loc.text.length)).line - 1,
             lineLen doc
               ((positionAt doc (offsetAt doc loc.start + loc.text.length)).line - 1)⟩
       else ⟨(positionAt doc (offsetAt doc loc.start + loc.text.length)).line,
             (positionAt doc (offsetAt doc loc.start + loc.text.length)).char -
               trailingWsCount loc.text⟩⟩ := by
  simp only [decorateOne, trimStartOffset_eq, trimEndOffset_eq]

/-- The sort comparator is transitive. -/
theorem lenLe_trans (a b c : ExpressionLocation) (h1 : lenLe a b = true)
    (h2 : lenLe b c = true) : lenLe a c = true := by
  simp only [lenLe, Nat.ble_eq] at h1 h2 ⊢
  omega

/-- The sort comparator is total. -/
theorem lenLe_total (a b : ExpressionLocation) : (lenLe a b || lenLe b a) = true := by
  simp only [lenLe, Nat.ble_eq, Bool.or_eq_true]
  omega

/-- C6: the decoration builder processes exactly the given locations
(first conjunct: the processing order is a permutation of the input), in
ascending order of expression-string length (second conjunct), and emits
the decorations in that processing order (third conjunct) — so of two
locations whose ranges coincide, the one with the longer expression is
processed, and its decoration applied, later. -/
theorem generateDecorators_sorted_by_length (doc : Str) (locs : List ExpressionLocation) :
    (locs.mergeSort lenLe).Perm locs ∧
    List.Pairwise (fun a b : ExpressionLocation =>
      a.expression.length ≤ b.expression.length) (locs.mergeSort lenLe) ∧
    generateDecorators doc locs = (locs.mergeSort lenLe).map (decorateOne doc) := by
  refine ⟨List.mergeSort_perm locs lenLe, ?_, rfl⟩
  have h := List.sorted_mergeSort lenLe_trans lenLe_total locs
  exact h.imp (fun hab => by simpa [lenLe, Nat.ble_eq] using hab)

/-- Whether a debounce event is a call of the debounced function. -/
def isTrigger : DebEvent → Bool
  | DebEvent.trigger => true
  | DebEvent.tick => false

/-- With no pending timer and no further trigger, the debounced function
never runs. -/
theorem runDeb_none_of_ticks (d n : Nat) :
    runDeb d ⟨none⟩ (List.replicate n DebEvent.tick) = (⟨none⟩, 0) := by
  induction n with
  | zero => rfl
  | succ k ih => simp [List.replicate_succ, runDeb, debStep, ih]

/-- During a trigger-free stretch the debounced function runs at most
once, from any starting state. -/
theorem runDeb_ticks_le_one (d : Nat) (s : DebState) (n : Nat) :
    (runDeb d s (List.replicate n DebEvent.tick)).2 ≤ 1 := by
  induction n generalizing s with
  | zero => simp [runDeb]
  | succ k ih =>
    cases hp : s.pending with
    | none =>
      have hstep : debStep d s DebEvent.tick = (⟨none⟩, false) := by
        simp [debStep, hp]
      simp [List.replicate_succ, runDeb, hstep, runDeb_none_of_ticks d k]
    | some m =>
      by_cases hm : m ≤ 1
      · have hstep : debStep d s DebEvent.tick = (⟨none⟩, true) := by
          simp [debStep, hp, hm]
        simp [List.replicate_succ, runDeb, hstep, runDeb_none_of_ticks d k]
      · have hstep : debStep d s DebEvent.tick = (⟨some (m - 1)⟩, false) := by
          simp [debStep, hp, hm]
        simpa [List.replicate_succ, runDeb, hstep] using ih ⟨some (m - 1)⟩

/-- The debounced function runs at most once per trigger (plus the timer
already pending at the start): there is never a queue of stale runs. -/
theorem runDeb_fires_le_triggers (d : Nat) (evs : List DebEvent) (s : DebState) :
    (runDeb d s evs).2 ≤
      evs.countP isTrigger + (if s.pending.isSome then 1 else 0) := by
  induction evs generalizing s with
  | nil => simp [runDeb]
  | cons e rest ih =>
    cases e with
    | trigger =>
      have hstep : debStep d s DebEvent.trigger = (⟨some d⟩, false) := rfl
      have h := ih ⟨some d⟩
      simp only [runDeb, hstep, List.countP_cons, isTrigger]
      simp at h ⊢
      omega
    | tick =>
      have hcount : (DebEvent.tick :: rest).countP isTrigger = rest.countP isTrigger := by
        simp [List.countP_cons, isTrigger]
      cases hp : s.pending with
      | none =>
        have hstep : debStep d s DebEvent.tick = (⟨none⟩, false) := by
          simp [debStep, hp]
        have h := ih ⟨none⟩
        simp only [runDeb, hstep, hcount, hp]
        simp at h ⊢
        omega
      | some m =>
        by_cases hm : m ≤ 1
        · have hstep : debStep d s DebEvent.tick = (⟨none⟩, true) := by
            simp [debStep, hp, hm]
          have h := ih ⟨none⟩
          simp only [runDeb, hstep, hcount, hp]
          simp at h ⊢
          omega
        · have hstep : debStep d s DebEvent.tick = (⟨some (m - 1)⟩, false) := by
            simp [debStep, hp, hm]
          have h := ih ⟨some (m - 1)⟩
          simp only [runDeb, hstep, hcount, hp]
          simp at h ⊢
          omega

/-- C7: triggering the update scheduler always cancels any pending timer
and re-arms a fresh one for the full quiet period (first and last
conjuncts, the last for the source's 500 ms instance); during any
trigger-free quiet stretch at most one recomputation runs (second
conjunct); and over an arbitrary event sequence the number of runs never
exceeds the number of triggers plus the initially pending timer — no queue
of stale runs (third conjunct). -/
theorem debounce_single_run (d n : Nat) (s : DebState) :
    (∀ s0 : DebState, debStep d s0 DebEvent.trigger = (⟨some d⟩, false)) ∧
    (runDeb d s (List.replicate n DebEvent.tick)).2 ≤ 1 ∧
    (∀ evs : List DebEvent, ∀ s2 : DebState,
      (runDeb d s2 evs).2 ≤
        evs.countP isTrigger + (if s2.pending.isSome then 1 else 0)) ∧
    queueDecoratorUpdateStep s DebEvent.trigger = (⟨some quietPeriodMs⟩, false) :=
  ⟨fun _ => rfl, runDeb_ticks_le_one d s n,
   fun evs s2 => runDeb_fires_le_triggers d evs s2, rfl⟩

/-- Store invariant (spec §5): the expression map's keys are pairwise
distinct and each maps to an in-range entity whose `expression` field
equals the key; every entity referenced by the pending-request map is
present in the expression map under its own expression key (and maps back
to the same entity). -/
def StoreInv (st : Store) : Prop :=
  List.Pairwise (fun p q => p.1 ≠ q.1) st.valueMap ∧
  (∀ p ∈ st.valueMap, p.2 < st.entities.length ∧
    (st.entities.getD p.2 defaultWatch).expression = p.1) ∧
  (∀ q ∈ st.requestMap,
    getA st.valueMap (st.entities.getD q.2 defaultWatch).expression = some q.2)

/-- An in-place entity mutation that does not change the `expression`
field preserves the store invariant. -/
theorem storeInv_updateEntity (st : Store) (id : Nat) (f : WatchedValue → WatchedValue)
    (hf : ∀ w, (f w).expression = w.expression) (h : StoreInv st) :
    StoreInv (updateEntity st id f) := by
  obtain ⟨h1, h2, h3⟩ := h
  have hexpr : ∀ j, ((updateEntity st id f).entities.getD j defaultWatch).expression =
      (st.entities.getD j defaultWatch).expression := by
    intro j
    rw [updateEntity_fields]
    split
    · rename_i hc
      rw [← hc.1, hf]
    · rfl
  refine ⟨h1, ?_, ?_⟩
  · intro p hp
    refine ⟨?_, ?_⟩
    · have hb := (h2 p hp).1
      simpa [updateEntity, List.length_set] using hb
    · rw [hexpr]
      exact (h2 p hp).2
  · intro q hq
    rw [hexpr]
    exact h3 q hq

/-- Clearing the store trivially re-establishes the invariant. -/
theorem storeInv_clear (st : Store) : StoreInv (clearExpressions st).1 := by
  refine ⟨List.Pairwise.nil, ?_, ?_⟩
  · intro p hp
    cases hp
  · intro q hq
    cases hq

/-- The add handler preserves the store invariant. -/
theorem storeInv_add (sel : Span) (e : Str) (st : Store) (h : StoreInv st) :
    StoreInv (addCmd sel e st).1 := by
  by_cases he : e.isEmpty
  · simpa [addCmd, he] using h
  · cases hg : getA st.valueMap e with
    | some id =>
      have hred : (addCmd sel e st).1 = updateEntity st id (fun w =>
          { w with renderAt :=
              w.renderAt.filter (fun r => !(spanIntersects r sel)) ++ [sel] }) := by
        simp [addCmd, he, hg]
      rw [hred]
      exact storeInv_updateEntity st id _ (fun w => rfl) h
    | none =>
      obtain ⟨h1, h2, h3⟩ := h
      have hred : (addCmd sel e st).1 =
          ⟨st.entities ++ [⟨e, none, [sel]⟩],
           setA e st.entities.length st.valueMap, st.requestMap⟩ := by
        simp [addCmd, he, hg]
      rw [hred]
      refine ⟨pairwise_setA _ h1, ?_, ?_⟩
      · intro p hp
        rcases mem_setA hp with hp | hp
        · subst hp
          constructor
          · simp only [List.length_append, List.length_cons, List.length_nil]
            omega
          · show ((st.entities ++ [(⟨e, none, [sel]⟩ : WatchedValue)]).getD st.entities.length
                defaultWatch).expression = e
            rw [getD_append_self]
        · obtain ⟨hb, hx⟩ := h2 p hp
          constructor
          · simp only [List.length_append, List.length_cons, List.length_nil]
            omega
          · rw [getD_append_lt _ _ _ _ hb]
            exact hx
      · intro q hq
        have h3q := h3 q hq
        have hmem := getA_mem h3q
        obtain ⟨hb, _⟩ := h2 _ hmem
        rw [getD_append_lt _ _ _ _ hb]
        have hne : (st.entities.getD q.2 defaultWatch).expression ≠ e := by
          intro hEq
          rw [hEq, hg] at h3q
          cases h3q
        rw [getA_setA_ne st.valueMap st.entities.length hne]
        exact h3q

/-- The remove handler preserves the store invariant. -/
theorem storeInv_remove (sel : Span) (e : Str) (st : Store) (h : StoreInv st) :
    StoreInv (removeCmd sel e st).1 := by
  by_cases he : e.isEmpty
  · simpa [removeCmd, he] using h
  · cases hg : getA st.valueMap e with
    | some id =>
      have hred : (removeCmd sel e st).1 = updateEntity st id (fun w =>
          { w with renderAt := w.renderAt.filter (fun r => !(spanIntersects r sel)) }) := by
        simp [removeCmd, he, hg]
      rw [hred]
      exact storeInv_updateEntity st id _ (fun w => rfl) h
    | none =>
      have hred : (removeCmd sel e st).1 = st := by
        simp [removeCmd, he, hg]
      rw [hred]
      exact h

/-- The outgoing-message observer preserves the store invariant. -/
theorem storeInv_onWill (mo : OutgoingMessage) (st : Store) (h : StoreInv st) :
    StoreInv (onWillReceiveMessage mo st).1 := by
  by_cases hn : mo.command = "next"
  · have hred : (onWillReceiveMessage mo st).1 = (clearExpressions st).1 := by
      simp [onWillReceiveMessage, hn]
    rw [hred]
    exact storeInv_clear st
  · by_cases hc : mo.command = "evaluate" ∧ mo.type = "request" ∧ mo.context = "watch"
    · cases hg : getA st.valueMap mo.expression with
      | some id =>
        have hred : (onWillReceiveMessage mo st).1 =
            ⟨st.entities, st.valueMap, setA mo.seq id st.requestMap⟩ := by
          simp [onWillReceiveMessage, hn, hc, hg]
        rw [hred]
        obtain ⟨h1, h2, h3⟩ := h
        refine ⟨h1, h2, ?_⟩
        intro q hq
        rcases mem_setA hq with hq | hq
        · subst hq
          have hmem := getA_mem hg
          have hx := (h2 _ hmem).2
          show getA st.valueMap (st.entities.getD id defaultWatch).expression = some id
          rw [hx]
          exact hg
        · exact h3 q hq
      | none =>
        have hred : (onWillReceiveMessage mo st).1 =
            ⟨st.entities ++ [⟨mo.expression, none, []⟩],
             setA mo.expression st.entities.length st.valueMap,
             setA mo.seq st.entities.length st.requestMap⟩ := by
          simp [onWillReceiveMessage, hn, hc, hg]
        rw [hred]
        obtain ⟨h1, h2, h3⟩ := h
        refine ⟨pairwise_setA _ h1, ?_, ?_⟩
        · intro p hp
          rcases mem_setA hp with hp | hp
          · subst hp
            constructor
            · simp only [List.length_append, List.length_cons, List.length_nil]
              omega
            · show ((st.entities ++ [(⟨mo.expression, none, []⟩ : WatchedValue)]).getD
                  st.entities.length defaultWatch).expression = mo.expression
              rw [getD_append_self]
          · obtain ⟨hb, hx⟩ := h2 p hp
            constructor
            · simp only [List.length_append, List.length_cons, List.length_nil]
              omega
            · rw [getD_append_lt _ _ _ _ hb]
              exact hx
        · intro q hq
          rcases mem_setA hq with hq | hq
          · subst hq
            show getA (setA mo.expression st.entities.length st.valueMap)
                ((st.entities ++ [(⟨mo.expression, none, []⟩ : WatchedValue)]).getD
                  st.entities.length defaultWatch).expression = some st.entities.length
            rw [getD_append_self]
            exact getA_setA_self st.valueMap mo.expression st.entities.length
          · have h3q := h3 q hq
            have hmem := getA_mem h3q
            obtain ⟨hb, _⟩ := h2 _ hmem
            rw [getD_append_lt _ _ _ _ hb]
            have hne : (st.entities.getD q.2 defaultWatch).expression ≠ mo.expression := by
              intro hEq
              rw [hEq, hg] at h3q
              cases h3q
            rw [getA_setA_ne st.valueMap st.entities.length hne]
            exact h3q
    · have hred : (onWillReceiveMessage mo st).1 = st := by
        simp [onWillReceiveMessage, hn, hc]
      rw [hred]
      exact h

/-- The incoming-message observer preserves the store invariant. -/
theorem storeInv_onDid (mi : IncomingMessage) (st : Store) (h : StoreInv st) :
    StoreInv (onDidSendMessage mi st).1 := by
  by_cases hc : mi.type = "response" ∧ mi.command = "evaluate" ∧ mi.bodyError = false
  · cases hg : getA st.requestMap mi.request_seq with
    | some id =>
      have hred : (onDidSendMessage mi st).1 = updateEntity st id (fun w =>
          { w with value := some ⟨mi.bodyType, mi.bodyResult⟩ }) := by
        simp [onDidSendMessage, hc, hg]
      rw [hred]
      exact storeInv_updateEntity st id _ (fun w => rfl) h
    | none =>
      have hred : (onDidSendMessage mi st).1 = st := by
        simp [onDidSendMessage, hc, hg]
      rw [hred]
      exact h
  · have hred : (onDidSendMessage mi st).1 = st := by
      simp [onDidSendMessage, hc]
    rw [hred]
    exact h

/-- C8: every single handler invocation — add, remove, reset, the
outgoing-message observer and the incoming-message observer — re-establishes
the store invariants: each expression string maps to at most one entity,
whose `expression` field equals its key, and every entity referenced by the
pending-request map is present in the expression map under its own
expression key. -/
theorem handlers_preserve_invariants (st : Store) (sel : Span) (e : Str)
    (mo : OutgoingMessage) (mi : IncomingMessage) (h : StoreInv st) :
    StoreInv (addCmd sel e st).1 ∧ StoreInv (removeCmd sel e st).1 ∧
    StoreInv (resetCmd st).1 ∧ StoreInv (onWillReceiveMessage mo st).1 ∧
    StoreInv (onDidSendMessage mi st).1 :=
  ⟨storeInv_add sel e st h, storeInv_remove sel e st h, storeInv_clear st,
   storeInv_onWill mo st h, storeInv_onDid mi st h⟩

/-- Closed instance of `handlers_preserve_invariants` on the concrete store
`c2Store` and concrete handler inputs. -/
theorem handlers_preserve_invariants_witness :
    StoreInv (addCmd ⟨⟨0, 0⟩, ⟨0, 1⟩⟩ ['y'] c2Store).1 ∧
    StoreInv (removeCmd ⟨⟨0, 0⟩, ⟨0, 1⟩⟩ ['y'] c2Store).1 ∧
    StoreInv (resetCmd c2Store).1 ∧
    StoreInv (onWillReceiveMessage ⟨9, "request", "evaluate", "watch", ['z']⟩ c2Store).1 ∧
    StoreInv (onDidSendMessage c2Msg c2Store).1 :=
  handlers_preserve_invariants c2Store ⟨⟨0, 0⟩, ⟨0, 1⟩⟩ ['y']
    ⟨9, "request", "evaluate", "watch", ['z']⟩ c2Msg (by unfold StoreInv; decide)

/-- Every location produced by the resolver carries the expression key of
one of the entries it was given. -/
theorem location_expression_mem (doc : Str) (entries : List (Str × WatchedValue))
    (loc : ExpressionLocation) (h : loc ∈ getExpressionLocations doc entries) :
    ∃ p ∈ entries, loc.expression = p.1 := by
  unfold getExpressionLocations at h
  rcases List.mem_flatMap.mp h with ⟨p, hp, hloc⟩
  refine ⟨p, hp, ?_⟩
  dsimp only at hloc
  by_cases hr : p.2.renderAt.isEmpty
  · rw [if_pos hr] at hloc
    rcases List.mem_map.mp hloc with ⟨m, hm, hEq⟩
    rw [← hEq]
  · rw [if_neg hr] at hloc
    rcases List.mem_map.mp hloc with ⟨r, hr2, hEq⟩
    rw [← hEq]

/-- C9: an expression whose resolved value's display text is the empty
string is excluded from the recomputation pipeline: no resolved location
carries it (first conjunct), the decorations are exactly the images of the
sorted resolved locations (second conjunct), and no location in that
processing order carries it either (third conjunct) — so no decoration is
emitted for it, even though the value is present in the store. -/
theorem empty_result_excluded (doc : Str) (st : Store) (e : Str) (id : Nat) (t : Str)
    (hpw : List.Pairwise (fun p q => p.1 ≠ q.1) st.valueMap)
    (hid : getA st.valueMap e = some id)
    (hval : (st.entities.getD id defaultWatch).value = some ⟨t, []⟩) :
    (∀ loc ∈ resolvedLocations doc st, loc.expression ≠ e) ∧
    updateDecorators doc st =
      ((resolvedLocations doc st).mergeSort lenLe).map (decorateOne doc) ∧
    (∀ loc ∈ (resolvedLocations doc st).mergeSort lenLe, loc.expression ≠ e) := by
  have hmain : ∀ loc ∈ resolvedLocations doc st, loc.expression ≠ e := by
    intro loc hloc hEq
    rcases location_expression_mem doc (visibleEntries st) loc hloc with ⟨p, hp, hpe⟩
    have hpe' : p.1 = e := by
      rw [← hpe, hEq]
    rcases List.mem_filter.mp hp with ⟨hpm, hpred⟩
    rcases List.mem_map.mp hpm with ⟨q, hq, hqp⟩
    have hq1 : q.1 = e := by
      rw [← hqp] at hpe'
      simpa using hpe'
    have hqmem : (e, q.2) ∈ st.valueMap := by
      have hqe : q = (e, q.2) := by
        cases q
        simp_all
      rw [← hqe]
      exact hq
    have hfound : getA st.valueMap e = some q.2 := getA_of_mem_pairwise hpw hqmem
    have heq2 : some q.2 = some id := hfound.symm.trans hid
    have hq2 : q.2 = id := by
      injection heq2
    have hp2 : p.2 = st.entities.getD id defaultWatch := by
      rw [← hqp]
      simp [hq2]
    rw [hp2, hval] at hpred
    simp at hpred
  refine ⟨hmain, rfl, ?_⟩
  intro loc hloc
  exact hmain loc ((List.mergeSort_perm (resolvedLocations doc st) lenLe).mem_iff.mp hloc)

/-- Store whose single watch `x` resolved to the empty display string. -/
def c9Store : Store := ⟨[⟨['x'], some ⟨['n'], []⟩, []⟩], [(['x'], 0)], []⟩

/-- Closed instance of `empty_result_excluded` on `c9Store` and the
one-character document `x`, where the watch would otherwise match. -/
theorem empty_result_excluded_witness :
    (∀ loc ∈ resolvedLocations ['x'] c9Store, loc.expression ≠ ['x']) ∧
    updateDecorators ['x'] c9Store =
      ((resolvedLocations ['x'] c9Store).mergeSort lenLe).map (decorateOne ['x']) ∧
    (∀ loc ∈ (resolvedLocations ['x'] c9Store).mergeSort lenLe, loc.expression ≠ ['x']) :=
  empty_result_excluded ['x'] c9Store ['x'] 0 ['n'] (by decide) (by decide) (by decide)
